import Mathlib

/-!
# Verification of the bakery inventory costing engine

A shallow embedding of `bakery/costing.py` (the COGS computation helpers)
and of the data model rows it touches (`PurchaseBatch`, `Sale`/`SaleItem`,
`CogsEntry` from `bakery/models.py`), together with proofs about it.

Modelling conventions:
* Python floats and `Decimal` values are embedded as exact rationals (`ℚ`).
  All quantities appearing in the properties below are exactly representable,
  so the embedding agrees with the source arithmetic on them.
* Dates (`received_at`, `expiry`) are embedded as natural-number ordinals;
  only their ordering matters.
* The database is a `DB` record holding the `PurchaseBatch` rows and the
  `CogsEntry` rows.  A query with `order_by` is a filter followed by a sort
  with the corresponding lexicographic key.
* `Decimal.quantize(Decimal("0.01"))` without an explicit rounding argument
  uses Python's default context rounding, `ROUND_HALF_EVEN`; `quantize2`
  embeds exactly that (round the value in cents to the nearest integer,
  ties to the even integer).
* Exceptions (`ValueError("Insufficient inventory...")`) are embedded with
  `Except Unit`; `transaction.atomic` is embedded by the `Committed`
  wrapper, which discards all state changes when the run raises.
-/

/-- A `PurchaseBatch` row (`bakery/models.py`). -/
structure PurchaseBatch where
  id : Nat
  productId : Nat
  outletId : Nat
  receivedAt : Nat
  qtyIn : ℚ
  unitCost : ℚ
  qtyRemaining : ℚ
  expiry : Option Nat
deriving DecidableEq, Repr

/-- A `SaleItem` row: one line of a sale. -/
structure SaleItem where
  id : Nat
  productId : Nat
  qty : ℚ
deriving DecidableEq, Repr

/-- A `Sale` row together with its line items. -/
structure Sale where
  outletId : Nat
  items : List SaleItem
deriving DecidableEq, Repr

/-- A `CogsEntry` row as created by `compute_cogs_for_sale`. -/
structure CogsEntry where
  saleItemId : Nat
  productId : Nat
  outletId : Nat
  qty : ℚ
  unit_cost : ℚ
  total_cost : ℚ
  method : String
deriving DecidableEq, Repr

/-- The database state seen by the costing engine. -/
structure DB where
  batches : List PurchaseBatch
  cogs : List CogsEntry
deriving DecidableEq, Repr

/-- The `BatchAllocation` dataclass from `bakery/costing.py`. -/
structure BatchAllocation where
  batch : PurchaseBatch
  qty : ℚ
deriving DecidableEq, Repr

instance {ε α : Type} [DecidableEq ε] [DecidableEq α] : DecidableEq (Except ε α) :=
  fun a b =>
    match a, b with
    | .ok x, .ok y => decidable_of_iff (x = y) (by simp)
    | .error x, .error y => decidable_of_iff (x = y) (by simp)
    | .ok _, .error _ => .isFalse (by simp)
    | .error _, .ok _ => .isFalse (by simp)

/-- The `1e-6` epsilon tolerance of `_allocate_fifo`. -/
def eps : ℚ := 1 / 1000000

/-- The loop body of `_allocate_fifo` (`costing.py` lines 23-35): walk the
candidate batches in order, allocating `min(available, remaining)` from each
positive batch until nothing remains.  Returns the allocations together with
the final unallocated remainder. -/
def allocLoop : List PurchaseBatch → ℚ → List BatchAllocation × ℚ
  | [], remaining => ([], remaining)
  | b :: rest, remaining =>
    if remaining ≤ 0 then ([], remaining)
    else
      let available := max b.qtyRemaining 0
      if available ≤ 0 then allocLoop rest remaining
      else
        let useQty := min available remaining
        if useQty ≤ 0 then allocLoop rest remaining
        else
          let res := allocLoop rest (remaining - useQty)
          (⟨b, useQty⟩ :: res.1, res.2)

/-- Embeds `_allocate_fifo` (`costing.py` lines 22-38): run the greedy loop and
raise `ValueError("Insufficient inventory to compute COGS")` when the
remainder exceeds `1e-6`. -/
def allocate_fifo (batches : List PurchaseBatch) (qtyNeeded : ℚ) :
    Except Unit (List BatchAllocation) :=
  let res := allocLoop batches qtyNeeded
  if res.2 > eps then .error () else .ok res.1

/-- FIFO ordering key: `order_by("received_at", "id")`. -/
def fifoLe (a b : PurchaseBatch) : Prop :=
  a.receivedAt < b.receivedAt ∨ (a.receivedAt = b.receivedAt ∧ a.id ≤ b.id)

instance : DecidableRel fifoLe := fun a b =>
  decidable_of_iff (a.receivedAt < b.receivedAt ∨ (a.receivedAt = b.receivedAt ∧ a.id ≤ b.id))
    Iff.rfl

/-- The `expiry` component of the FEFO key: `F("expiry").asc(nulls_last=True)`
sorts all non-null expiries (tagged `0`) before all null ones (tagged `1`). -/
def expiryKey (b : PurchaseBatch) : Nat × Nat :=
  match b.expiry with
  | some d => (0, d)
  | none => (1, 0)

/-- Strict lexicographic order on `Nat × Nat`. -/
def natPairLt (x y : Nat × Nat) : Prop :=
  x.1 < y.1 ∨ (x.1 = y.1 ∧ x.2 < y.2)

/-- FEFO ordering key:
`order_by(F("expiry").asc(nulls_last=True), "received_at", "id")`. -/
def fefoLe (a b : PurchaseBatch) : Prop :=
  natPairLt (expiryKey a) (expiryKey b) ∨ (expiryKey a = expiryKey b ∧ fifoLe a b)

instance : DecidableRel fefoLe := fun a b => by
  unfold fefoLe natPairLt fifoLe
  infer_instance

instance : IsTotal PurchaseBatch fifoLe :=
  ⟨fun a b => by unfold fifoLe; omega⟩

instance : IsTrans PurchaseBatch fifoLe :=
  ⟨fun a b c hab hbc => by unfold fifoLe at *; omega⟩

instance : IsTotal PurchaseBatch fefoLe :=
  ⟨fun a b => by
    unfold fefoLe natPairLt fifoLe
    simp only [Prod.ext_iff]
    omega⟩

instance : IsTrans PurchaseBatch fefoLe :=
  ⟨fun a b c hab hbc => by
    unfold fefoLe natPairLt fifoLe at *
    simp only [Prod.ext_iff] at *
    omega⟩

/-- The rows returned by
`PurchaseBatch.objects.filter(product_id=..., outlet_id=...)`. -/
def batchesFor (db : DB) (productId outletId : Nat) : List PurchaseBatch :=
  db.batches.filter fun b => b.productId == productId && b.outletId == outletId

/-- The locked candidate list of `pick_batches_fifo` (`costing.py` lines
42-46): all batches of the (product, outlet) pair ordered by
`(received_at, id)`. -/
def candidatesFifo (db : DB) (productId outletId : Nat) : List PurchaseBatch :=
  List.insertionSort fifoLe (batchesFor db productId outletId)

/-- The locked candidate list of `pick_batches_fefo` (`costing.py` lines
51-55): all batches of the (product, outlet) pair ordered by
`(expiry asc nulls last, received_at, id)`. -/
def candidatesFefo (db : DB) (productId outletId : Nat) : List PurchaseBatch :=
  List.insertionSort fefoLe (batchesFor db productId outletId)

/-- Embeds `pick_batches_fifo` (`costing.py` lines 41-47). -/
def pick_batches_fifo (db : DB) (productId outletId : Nat) (qty : ℚ) :
    Except Unit (List BatchAllocation) :=
  allocate_fifo (candidatesFifo db productId outletId) qty

/-- Embeds `pick_batches_fefo` (`costing.py` lines 50-56). -/
def pick_batches_fefo (db : DB) (productId outletId : Nat) (qty : ℚ) :
    Except Unit (List BatchAllocation) :=
  allocate_fifo (candidatesFefo db productId outletId) qty

/-- Round a rational to the nearest integer, ties to the even integer —
the `ROUND_HALF_EVEN` rounding of Python's default `Decimal` context. -/
def roundHalfEven (x : ℚ) : ℤ :=
  let f := ⌊x⌋
  let frac := x - (f : ℚ)
  if frac < 1 / 2 then f
  else if 1 / 2 < frac then f + 1
  else if f % 2 = 0 then f else f + 1

/-- Embeds `value.quantize(Decimal("0.01"))` under Python's default context:
round the value in cents half-even. -/
def quantize2 (x : ℚ) : ℚ :=
  (roundHalfEven (x * 100) : ℚ) / 100

/-- The weighted totals accumulated by the loop at `costing.py` lines 78-84:
`total_cost` and `weighted_qty` over the allocations of one sale line. -/
def lineTotalCost (allocs : List BatchAllocation) : ℚ :=
  allocs.foldl (fun acc a => acc + a.qty * a.batch.unitCost) 0

def lineWeightedQty (allocs : List BatchAllocation) : ℚ :=
  allocs.foldl (fun acc a => acc + a.qty) 0

/-- Embeds `unit_cost = (total_cost / weighted_qty) if weighted_qty else Decimal("0")`
(`costing.py` line 91). -/
def lineUnitCost (totalCost weightedQty : ℚ) : ℚ :=
  if weightedQty = 0 then 0 else totalCost / weightedQty

/-- The batch decrement of `costing.py` lines 86-89 applied to one row:
subtract the allocated quantity from `qty_remaining`, clamping at zero. -/
def applyOne (a : BatchAllocation) (b : PurchaseBatch) : PurchaseBatch :=
  if b.id == a.batch.id then
    let newRem := b.qtyRemaining - a.qty
    { b with qtyRemaining := if newRem < 0 then 0 else newRem }
  else b

/-- Persist one allocation's decrement (`batch.save(...)`). -/
def applyAllocation (db : DB) (a : BatchAllocation) : DB :=
  { db with batches := db.batches.map (applyOne a) }

/-- Embeds `CogsEntry.objects.filter(sale_item=item).exists()` (`costing.py` line 66). -/
def hasEntry (db : DB) (itemId : Nat) : Bool :=
  db.cogs.any fun e => e.saleItemId == itemId

/-- One iteration of the per-item loop of `compute_cogs_for_sale`
(`costing.py` lines 65-102), instrumented to also return the list of batch
allocations it performed (`[]` when the line is skipped). -/
def processItemL (outletId : Nat) (method : String) (db : DB) (item : SaleItem) :
    Except Unit (DB × List BatchAllocation) :=
  if hasEntry db item.id then .ok (db, [])
  else
    let cands :=
      if method == "FEFO" then candidatesFefo db item.productId outletId
      else candidatesFifo db item.productId outletId
    match allocate_fifo cands item.qty with
    | .error e => .error e
    | .ok allocs =>
      let db1 := allocs.foldl applyAllocation db
      let totalCost := lineTotalCost allocs
      let weightedQty := lineWeightedQty allocs
      let unitCost := lineUnitCost totalCost weightedQty
      .ok ({ db1 with
              cogs := db1.cogs ++
                [{ saleItemId := item.id
                   productId := item.productId
                   outletId := outletId
                   qty := item.qty
                   unit_cost := quantize2 unitCost
                   total_cost := quantize2 totalCost
                   method := method }] },
            allocs)

/-- The per-item loop of `compute_cogs_for_sale`, threading the database and
accumulating the allocation log. -/
def runItemsL (outletId : Nat) (method : String) :
    DB → List SaleItem → Except Unit (DB × List BatchAllocation)
  | db, [] => .ok (db, [])
  | db, item :: rest =>
    match processItemL outletId method db item with
    | .error e => .error e
    | .ok (db1, log1) =>
      match runItemsL outletId method db1 rest with
      | .error e => .error e
      | .ok (db2, log2) => .ok (db2, log1 ++ log2)

/-- Embeds `compute_cogs_for_sale(sale, method)` (`costing.py` lines 59-102).
An `error` result models the `ValueError` escaping `transaction.atomic`,
in which case no state change is committed (see `computeCogsCommitted`). -/
def compute_cogs_for_sale (sale : Sale) (method : String) (db : DB) :
    Except Unit DB :=
  if sale.items.isEmpty then .ok db
  else
    match runItemsL sale.outletId method db sale.items with
    | .error e => .error e
    | .ok (db', _) => .ok db'

/-- The result of `compute_cogs_for_sale` together with its allocation log,
after `transaction.atomic` commits or rolls back: an exception discards every
batch decrement and entry creation of the call. -/
def computeCogsL (sale : Sale) (method : String) (db : DB) :
    DB × List BatchAllocation :=
  if sale.items.isEmpty then (db, [])
  else
    match runItemsL sale.outletId method db sale.items with
    | .error _ => (db, [])
    | .ok r => r

/-- The database state visible after a `compute_cogs_for_sale` call returns
or raises (`transaction.atomic` semantics). -/
def computeCogsCommitted (sale : Sale) (method : String) (db : DB) : DB :=
  (computeCogsL sale method db).1

/-- A sequence of costing calls, each committed (or rolled back) in turn,
accumulating the combined allocation log. -/
def runSalesL : DB → List (Sale × String) → DB × List BatchAllocation
  | db, [] => (db, [])
  | db, (s, m) :: rest =>
    let r := computeCogsL s m db
    let r2 := runSalesL r.1 rest
    (r2.1, r.2 ++ r2.2)

/-- Total quantity allocated from batch `i` in an allocation log. -/
def allocatedTo : List BatchAllocation → Nat → ℚ
  | [], _ => 0
  | a :: rest, i => (if a.batch.id = i then a.qty else 0) + allocatedTo rest i

/-- Sum of the positive remaining quantities over a candidate list: the stock
available to the greedy allocator. -/
def availTotal (batches : List PurchaseBatch) : ℚ :=
  (batches.map fun b => max b.qtyRemaining 0).sum

/-- Number of `CogsEntry` rows for a given sale line. -/
def countE (db : DB) (i : Nat) : ℕ :=
  (db.cogs.filter fun e => e.saleItemId == i).length

/-- The cumulative effect on one row of applying a list of decrements. -/
def applyList (allocs : List BatchAllocation) (b : PurchaseBatch) : PurchaseBatch :=
  allocs.foldl (fun acc a => applyOne a acc) b

/-- One row after subtracting everything a log allocates from it. -/
def decBy (log : List BatchAllocation) (b : PurchaseBatch) : PurchaseBatch :=
  { b with qtyRemaining := b.qtyRemaining - allocatedTo log b.id }

/-- Modelled from the spec (claim C7), for comparison with `candidatesFifo`:
"returns all batches for the (product, outlet) pair with
`quantity_remaining > 0`", FIFO-ordered. -/
def specCandidatesFifo (db : DB) (p o : Nat) : List PurchaseBatch :=
  List.insertionSort fifoLe ((batchesFor db p o).filter fun b => 0 < b.qtyRemaining)

/-- Modelled from the spec (claim C6), for comparison with `quantize2`:
"rounded half-up to 2 decimal places" — round the value in cents to the
nearest integer with ties going up. -/
def specRoundHalfUp2 (x : ℚ) : ℚ :=
  (⌊x * 100 + 1 / 2⌋ : ℚ) / 100

/-! Concrete rows used by the example-based claims. -/

/-- B1 of the spec's FIFO example: received day 1, qty 5, cost 10. -/
def batchB1 : PurchaseBatch := ⟨1, 1, 1, 1, 5, 10, 5, none⟩

/-- B2 of the spec's FIFO example: received day 2, qty 5, cost 20. -/
def batchB2 : PurchaseBatch := ⟨2, 1, 1, 2, 5, 20, 5, none⟩

/-- Database of the FIFO example, deliberately stored out of order. -/
def dbC3 : DB := ⟨[batchB2, batchB1], []⟩

/-- A sale of qty 7 of product 1 at outlet 1, one line with id 1. -/
def saleC3 : Sale := ⟨1, [⟨1, 1, 7⟩]⟩

/-- Database state after costing `saleC3` on `dbC3` under FIFO. -/
def dbC3res : DB :=
  ⟨[{ batchB2 with qtyRemaining := 3 }, { batchB1 with qtyRemaining := 0 }],
    [⟨1, 1, 1, 7, 1286 / 100, 90, "FIFO"⟩]⟩

/-- B1 of the spec's FEFO example: expiry day 10, qty 3, received earlier. -/
def batchE1 : PurchaseBatch := ⟨1, 1, 1, 1, 3, 10, 3, some 10⟩

/-- B2 of the spec's FEFO example: expiry day 5, qty 3, received later. -/
def batchE2 : PurchaseBatch := ⟨2, 1, 1, 2, 3, 20, 3, some 5⟩

def dbC4 : DB := ⟨[batchE1, batchE2], []⟩

/-- A batch with no expiry, received first and with the smaller id. -/
def batchN1 : PurchaseBatch := ⟨1, 1, 1, 0, 2, 10, 2, none⟩

/-- A batch with an expiry, received later and with the larger id. -/
def batchN2 : PurchaseBatch := ⟨2, 1, 1, 5, 2, 10, 2, some 100⟩

def dbNull : DB := ⟨[batchN1, batchN2], []⟩

/-- Rounding example rows: one unit at 12.84 and one at 12.85, so a sale of
qty 2 blends to exactly 12.845. -/
def batchF1 : PurchaseBatch := ⟨1, 1, 1, 1, 1, 1284 / 100, 1, none⟩

def batchF2 : PurchaseBatch := ⟨2, 1, 1, 2, 1, 1285 / 100, 1, none⟩

def dbC6 : DB := ⟨[batchF1, batchF2], []⟩

def saleC6 : Sale := ⟨1, [⟨1, 1, 2⟩]⟩

/-- Database state after costing `saleC6`: the blended cost 12.845 is
persisted as 12.84 (half-even), not 12.85 (half-up). -/
def dbC6res : DB :=
  ⟨[{ batchF1 with qtyRemaining := 0 }, { batchF2 with qtyRemaining := 0 }],
    [⟨1, 1, 1, 2, 1284 / 100, 2569 / 100, "FIFO"⟩]⟩

/-- A fully depleted batch of the pair (product 1, outlet 1). -/
def batchDead : PurchaseBatch := ⟨1, 1, 1, 1, 5, 10, 0, none⟩

def dbC7 : DB := ⟨[batchDead], []⟩

/-- One batch with a single unit remaining. -/
def batchW : PurchaseBatch := ⟨1, 1, 1, 1, 1, 10, 1, none⟩

def dbW : DB := ⟨[batchW], []⟩

/-- A sale needing 2 units when only 1 is in stock. -/
def saleW : Sale := ⟨1, [⟨1, 1, 2⟩]⟩

def dbC9 : DB := ⟨[], []⟩

/-- A degenerate sale line of quantity zero. -/
def itemZ : SaleItem := ⟨1, 1, 0⟩

/-- State after costing the zero-quantity line: one entry, unit cost 0. -/
def dbC9res : DB := ⟨[], [⟨1, 1, 1, 0, 0, 0, "FIFO"⟩]⟩

/-! ### Basic lemmas about the greedy allocation loop -/

lemma allocLoop_nonpos (bs : List PurchaseBatch) (q : ℚ) (h : q ≤ 0) :
    allocLoop bs q = ([], q) := by
  cases bs with
  | nil => rfl
  | cons b rest => simp [allocLoop, h]

lemma allocLoop_cons (b : PurchaseBatch) (rest : List PurchaseBatch) (q : ℚ) :
    allocLoop (b :: rest) q =
      if q ≤ 0 then ([], q)
      else if b.qtyRemaining ≤ 0 then allocLoop rest q
      else
        ((⟨b, min b.qtyRemaining q⟩ : BatchAllocation) ::
            (allocLoop rest (q - min b.qtyRemaining q)).1,
          (allocLoop rest (q - min b.qtyRemaining q)).2) := by
  rcases le_or_lt q 0 with hq | hq
  · simp [allocLoop, hq]
  · rcases le_or_lt b.qtyRemaining 0 with hb | hb
    · simp [allocLoop, not_le.2 hq, hb, max_eq_right hb]
    · have hmax : max b.qtyRemaining 0 = b.qtyRemaining := max_eq_left hb.le
      have hmin : 0 < min b.qtyRemaining q := lt_min hb hq
      simp [allocLoop, not_le.2 hq, hmax, not_le.2 hb, not_le.2 hmin]

lemma availTotal_nil : availTotal [] = 0 := rfl

lemma availTotal_cons (b : PurchaseBatch) (rest : List PurchaseBatch) :
    availTotal (b :: rest) = max b.qtyRemaining 0 + availTotal rest := by
  simp [availTotal]

lemma availTotal_nonneg (bs : List PurchaseBatch) : 0 ≤ availTotal bs := by
  induction bs with
  | nil => simp [availTotal_nil]
  | cons b rest ih =>
    rw [availTotal_cons]
    exact add_nonneg (le_max_right _ _) ih

lemma allocLoop_snd (bs : List PurchaseBatch) :
    ∀ q : ℚ, 0 ≤ q → (allocLoop bs q).2 = max (q - availTotal bs) 0 := by
  induction bs with
  | nil =>
    intro q hq
    simp [allocLoop, availTotal_nil, max_eq_left hq]
  | cons b rest ih =>
    intro q hq
    rw [allocLoop_cons]
    rcases le_or_lt q 0 with h0 | h0
    · have hq0 : q = 0 := le_antisymm h0 hq
      subst hq0
      have hA := availTotal_nonneg (b :: rest)
      rw [if_pos le_rfl, zero_sub, max_eq_right (by linarith)]
    · rw [if_neg (not_le.2 h0)]
      rcases le_or_lt b.qtyRemaining 0 with hb | hb
      · rw [if_pos hb, ih q hq, availTotal_cons, max_eq_right hb]
        ring_nf
      · rw [if_neg (not_le.2 hb)]
        have hmin : min b.qtyRemaining q ≤ q := min_le_right _ _
        dsimp only
        rw [ih _ (by linarith), availTotal_cons, max_eq_left hb.le]
        rcases le_total b.qtyRemaining q with hle | hle
        · rw [min_eq_left hle]
          ring_nf
        · rw [min_eq_right hle]
          have hA := availTotal_nonneg rest
          rw [max_eq_right (by linarith), max_eq_right (by linarith)]

lemma eps_pos : 0 < eps := by norm_num [eps]

lemma allocate_fifo_error_iff (bs : List PurchaseBatch) (q : ℚ) (hq : 0 ≤ q) :
    allocate_fifo bs q = .error () ↔ availTotal bs + eps < q := by
  have hchar : ((allocLoop bs q).2 > eps) ↔ availTotal bs + eps < q := by
    rw [allocLoop_snd bs q hq, gt_iff_lt, lt_max_iff]
    have := eps_pos
    constructor
    · rintro (h | h)
      · linarith
      · linarith
    · intro h
      left
      linarith
  unfold allocate_fifo
  by_cases h : (allocLoop bs q).2 > eps
  · simp only [if_pos h]
    simpa [h] using hchar
  · simp only [if_neg h]
    simp only [h] at hchar
    simp [← hchar]

/-! ### Non-positive batches are invisible to the loop -/

lemma allocLoop_filter (bs : List PurchaseBatch) :
    ∀ q : ℚ, allocLoop bs q = allocLoop (bs.filter fun b => 0 < b.qtyRemaining) q := by
  induction bs with
  | nil => intro q; rfl
  | cons b rest ih =>
    intro q
    rcases le_or_lt q 0 with h0 | h0
    · rw [allocLoop_nonpos _ _ h0, allocLoop_nonpos _ _ h0]
    · by_cases hb : 0 < b.qtyRemaining
      · rw [List.filter_cons_of_pos (by simpa using hb), allocLoop_cons, allocLoop_cons,
          if_neg (not_le.2 h0), if_neg (not_le.2 h0), if_neg (not_le.2 hb),
          if_neg (not_le.2 hb), ih]
      · rw [List.filter_cons_of_neg (by simpa using hb), allocLoop_cons,
          if_neg (not_le.2 h0), if_pos (not_lt.1 hb), ih]

/-! ### Structure of the greedy allocation -/

lemma allocLoop_fst_nonpos (bs : List PurchaseBatch) (q : ℚ) (h : q ≤ 0) :
    (allocLoop bs q).1 = [] := by
  rw [allocLoop_nonpos bs q h]

lemma allocLoop_greedy (bs : List PurchaseBatch) :
    ∀ q : ℚ,
      ((allocLoop bs q).1.map fun a => a.batch) =
        (bs.filter fun b => 0 < b.qtyRemaining).take (allocLoop bs q).1.length ∧
      (∀ a ∈ (allocLoop bs q).1.dropLast, a.qty = a.batch.qtyRemaining) ∧
      (∀ a ∈ (allocLoop bs q).1, 0 < a.qty ∧ a.qty ≤ a.batch.qtyRemaining ∧ a.batch ∈ bs) ∧
      (allocLoop bs q).1.length ≤ bs.length := by
  induction bs with
  | nil => intro q; simp [allocLoop]
  | cons b rest ih =>
    intro q
    rcases le_or_lt q 0 with h0 | h0
    · rw [allocLoop_nonpos _ _ h0]
      simp
    · rw [allocLoop_cons, if_neg (not_le.2 h0)]
      rcases le_or_lt b.qtyRemaining 0 with hb | hb
      · rw [if_pos hb, List.filter_cons_of_neg (by simpa using hb)]
        obtain ⟨ih1, ih2, ih3, ih4⟩ := ih q
        refine ⟨ih1, ih2, fun a ha => ?_, le_trans ih4 (by simp)⟩
        obtain ⟨hq1, hq2, hq3⟩ := ih3 a ha
        exact ⟨hq1, hq2, List.mem_cons_of_mem _ hq3⟩
      · rw [if_neg (not_le.2 hb), List.filter_cons_of_pos (by simpa using hb)]
        dsimp only
        have hminpos : 0 < min b.qtyRemaining q := lt_min hb h0
        obtain ⟨ih1, ih2, ih3, ih4⟩ := ih (q - min b.qtyRemaining q)
        refine ⟨?_, ?_, ?_, ?_⟩
        · simp only [List.map_cons, List.length_cons, List.take_succ_cons]
          rw [ih1]
        · intro a ha
          rcases hrest : (allocLoop rest (q - min b.qtyRemaining q)).1 with _ | ⟨c, cs⟩
          · rw [hrest] at ha
            simp at ha
          · rw [hrest] at ha
            rw [List.dropLast_cons₂] at ha
            rcases List.mem_cons.1 ha with rfl | ha'
            · -- the head allocation is followed by another one, so the whole
              -- quantity of `b` was taken: the recursion continued, hence
              -- the remaining need was still positive.
              have hne : (allocLoop rest (q - min b.qtyRemaining q)).1 ≠ [] := by
                rw [hrest]; simp
              have hpos : ¬ q - min b.qtyRemaining q ≤ 0 := by
                intro hle
                exact hne (allocLoop_fst_nonpos _ _ hle)
              have : min b.qtyRemaining q < q := by
                rcases le_total b.qtyRemaining q with h | h
                · push_neg at hpos
                  rw [min_eq_left h] at *
                  linarith
                · rw [min_eq_right h] at hpos
                  exact absurd (by linarith) hpos
              have : min b.qtyRemaining q = b.qtyRemaining := by
                rcases le_total b.qtyRemaining q with h | h
                · exact min_eq_left h
                · rw [min_eq_right h] at this
                  linarith
              simpa using this
            · rw [hrest] at ih2
              exact ih2 a ha'
        · intro a ha
          rcases List.mem_cons.1 ha with rfl | ha'
          · exact ⟨hminpos, min_le_left _ _, List.mem_cons_self _ _⟩
          · obtain ⟨hq1, hq2, hq3⟩ := ih3 a ha'
            exact ⟨hq1, hq2, List.mem_cons_of_mem _ hq3⟩
        · simpa using Nat.succ_le_succ ih4

/-! ### Ordering of the candidate lists -/

lemma sorted_candidatesFifo (db : DB) (p o : Nat) :
    (candidatesFifo db p o).Sorted fifoLe :=
  List.sorted_insertionSort fifoLe _

lemma sorted_candidatesFefo (db : DB) (p o : Nat) :
    (candidatesFefo db p o).Sorted fefoLe :=
  List.sorted_insertionSort fefoLe _

lemma perm_candidatesFifo (db : DB) (p o : Nat) :
    (candidatesFifo db p o).Perm (batchesFor db p o) :=
  List.perm_insertionSort fifoLe _

lemma perm_candidatesFefo (db : DB) (p o : Nat) :
    (candidatesFefo db p o).Perm (batchesFor db p o) :=
  List.perm_insertionSort fefoLe _

lemma fefoLe_none (a b : PurchaseBatch) (h : fefoLe a b) (ha : a.expiry = none) :
    b.expiry = none := by
  unfold fefoLe natPairLt expiryKey at h
  cases hb : b.expiry with
  | none => rfl
  | some d =>
    rw [ha, hb] at h
    simp only [Prod.ext_iff] at h
    omega

lemma mem_batchesFor (db : DB) (p o : Nat) (b : PurchaseBatch)
    (h : b ∈ batchesFor db p o) : b ∈ db.batches :=
  List.mem_of_mem_filter h

lemma mem_candidatesFifo (db : DB) (p o : Nat) (b : PurchaseBatch)
    (h : b ∈ candidatesFifo db p o) : b ∈ db.batches :=
  mem_batchesFor db p o b ((perm_candidatesFifo db p o).mem_iff.1 h)

lemma mem_candidatesFefo (db : DB) (p o : Nat) (b : PurchaseBatch)
    (h : b ∈ candidatesFefo db p o) : b ∈ db.batches :=
  mem_batchesFor db p o b ((perm_candidatesFefo db p o).mem_iff.1 h)

lemma nodup_batchesFor (db : DB) (p o : Nat)
    (h : (db.batches.map fun b => b.id).Nodup) :
    ((batchesFor db p o).map fun b => b.id).Nodup :=
  ((List.filter_sublist _).map _).nodup h

lemma nodup_candidatesFifo (db : DB) (p o : Nat)
    (h : (db.batches.map fun b => b.id).Nodup) :
    ((candidatesFifo db p o).map fun b => b.id).Nodup :=
  (((perm_candidatesFifo db p o).map _).nodup_iff).2 (nodup_batchesFor db p o h)

lemma nodup_candidatesFefo (db : DB) (p o : Nat)
    (h : (db.batches.map fun b => b.id).Nodup) :
    ((candidatesFefo db p o).map fun b => b.id).Nodup :=
  (((perm_candidatesFefo db p o).map _).nodup_iff).2 (nodup_batchesFor db p o h)

/-! ### Structure of one per-item step -/

lemma foldl_applyAllocation_cogs (allocs : List BatchAllocation) :
    ∀ db : DB, (allocs.foldl applyAllocation db).cogs = db.cogs := by
  induction allocs with
  | nil => intro db; rfl
  | cons a rest ih =>
    intro db
    rw [List.foldl_cons, ih]
    rfl

lemma processItemL_skip (o : Nat) (m : String) (db : DB) (item : SaleItem)
    (h : hasEntry db item.id = true) :
    processItemL o m db item = .ok (db, []) := by
  simp [processItemL, h]

/-- Shape of a successful per-item step: either the line was skipped, or
exactly one entry — for this line — was appended, built from the allocations
that were also applied to the batches. -/
lemma processItemL_shape (o : Nat) (m : String) (db : DB) (item : SaleItem)
    (db' : DB) (log : List BatchAllocation)
    (h : processItemL o m db item = .ok (db', log)) :
    (hasEntry db item.id = true ∧ db' = db ∧ log = []) ∨
    (hasEntry db item.id = false ∧
      allocate_fifo
        (if m == "FEFO" then candidatesFefo db item.productId o
          else candidatesFifo db item.productId o) item.qty = .ok log ∧
      db'.batches = (log.foldl applyAllocation db).batches ∧
      db'.cogs = db.cogs ++
        [{ saleItemId := item.id
           productId := item.productId
           outletId := o
           qty := item.qty
           unit_cost := quantize2 (lineUnitCost (lineTotalCost log) (lineWeightedQty log))
           total_cost := quantize2 (lineTotalCost log)
           method := m }]) := by
  by_cases he : hasEntry db item.id
  · left
    rw [processItemL_skip o m db item he] at h
    cases h
    exact ⟨he, rfl, rfl⟩
  · right
    unfold processItemL at h
    rw [if_neg he] at h
    dsimp only at h
    rcases halloc : allocate_fifo
        (if m == "FEFO" then candidatesFefo db item.productId o
          else candidatesFifo db item.productId o) item.qty with e | allocs
    · rw [halloc] at h
      cases h
    · rw [halloc] at h
      dsimp only at h
      simp only [Except.ok.injEq, Prod.mk.injEq] at h
      obtain ⟨hdb, hlog⟩ := h
      subst hlog
      subst hdb
      refine ⟨eq_false_of_ne_true he, rfl, rfl, ?_⟩
      rw [foldl_applyAllocation_cogs]

lemma processItemL_hasEntry_mono (o : Nat) (m : String) (db : DB) (item : SaleItem)
    (db' : DB) (log : List BatchAllocation)
    (h : processItemL o m db item = .ok (db', log)) (i : Nat)
    (hi : hasEntry db i = true) : hasEntry db' i = true := by
  rcases processItemL_shape o m db item db' log h with ⟨_, rfl, _⟩ | ⟨_, _, _, hc⟩
  · exact hi
  · unfold hasEntry at *
    rw [hc, List.any_append, hi]
    rfl

lemma processItemL_hasEntry_self (o : Nat) (m : String) (db : DB) (item : SaleItem)
    (db' : DB) (log : List BatchAllocation)
    (h : processItemL o m db item = .ok (db', log)) :
    hasEntry db' item.id = true := by
  rcases processItemL_shape o m db item db' log h with ⟨he, rfl, _⟩ | ⟨_, _, _, hc⟩
  · exact he
  · unfold hasEntry
    rw [hc, List.any_append]
    simp

lemma processItemL_countE (o : Nat) (m : String) (db : DB) (item : SaleItem)
    (db' : DB) (log : List BatchAllocation)
    (h : processItemL o m db item = .ok (db', log)) (i : Nat) :
    countE db' i =
      countE db i + (if hasEntry db item.id = false ∧ i = item.id then 1 else 0) := by
  rcases processItemL_shape o m db item db' log h with ⟨he, rfl, _⟩ | ⟨he, _, _, hc⟩
  · simp [he]
  · unfold countE
    rw [hc, List.filter_append, List.length_append]
    by_cases hii : i = item.id
    · subst hii
      simp [he]
    · simp [he, hii, Ne.symm hii]

/-! ### Entry bookkeeping across a whole run -/

lemma countE_eq_zero (db : DB) (i : Nat) (h : hasEntry db i = false) :
    countE db i = 0 := by
  unfold hasEntry at h
  unfold countE
  rw [List.length_eq_zero, List.filter_eq_nil]
  intro e he
  rcases List.any_eq_false.1 h e he with hne
  simpa using hne

lemma runItemsL_hasEntry_mono (o : Nat) (m : String) :
    ∀ (items : List SaleItem) (db db' : DB) (log : List BatchAllocation),
      runItemsL o m db items = .ok (db', log) →
      ∀ i, hasEntry db i = true → hasEntry db' i = true := by
  intro items
  induction items with
  | nil =>
    intro db db' log h i hi
    cases h
    exact hi
  | cons item rest ih =>
    intro db db' log h i hi
    unfold runItemsL at h
    rcases hp : processItemL o m db item with e | ⟨db1, log1⟩
    · rw [hp] at h
      exact absurd h (by simp)
    · rw [hp] at h
      dsimp only at h
      rcases hr : runItemsL o m db1 rest with e | ⟨db2, log2⟩
      · rw [hr] at h
        exact absurd h (by simp)
      · rw [hr] at h
        dsimp only at h
        simp only [Except.ok.injEq, Prod.mk.injEq] at h
        obtain ⟨hdb, -⟩ := h
        subst hdb
        exact ih db1 db2 log2 hr i (processItemL_hasEntry_mono o m db item db1 log1 hp i hi)

lemma runItemsL_hasEntry_all (o : Nat) (m : String) :
    ∀ (items : List SaleItem) (db db' : DB) (log : List BatchAllocation),
      runItemsL o m db items = .ok (db', log) →
      ∀ it ∈ items, hasEntry db' it.id = true := by
  intro items
  induction items with
  | nil =>
    intro db db' log h it hit
    simp at hit
  | cons item rest ih =>
    intro db db' log h it hit
    unfold runItemsL at h
    rcases hp : processItemL o m db item with e | ⟨db1, log1⟩
    · rw [hp] at h
      exact absurd h (by simp)
    · rw [hp] at h
      dsimp only at h
      rcases hr : runItemsL o m db1 rest with e | ⟨db2, log2⟩
      · rw [hr] at h
        exact absurd h (by simp)
      · rw [hr] at h
        dsimp only at h
        simp only [Except.ok.injEq, Prod.mk.injEq] at h
        obtain ⟨hdb, -⟩ := h
        subst hdb
        rcases List.mem_cons.1 hit with rfl | hit'
        · exact runItemsL_hasEntry_mono o m rest db1 db2 log2 hr it.id
            (processItemL_hasEntry_self o m db it db1 log1 hp)
        · exact ih db1 db2 log2 hr it hit'

lemma runItemsL_allSkip (o : Nat) (m : String) :
    ∀ (items : List SaleItem) (db : DB),
      (∀ it ∈ items, hasEntry db it.id = true) →
      runItemsL o m db items = .ok (db, []) := by
  intro items
  induction items with
  | nil => intro db _; rfl
  | cons item rest ih =>
    intro db hall
    unfold runItemsL
    rw [processItemL_skip o m db item (hall item (List.mem_cons_self _ _))]
    dsimp only
    rw [ih db fun it hit => hall it (List.mem_cons_of_mem _ hit)]
    rfl

lemma runItemsL_countE_notmem (o : Nat) (m : String) :
    ∀ (items : List SaleItem) (db db' : DB) (log : List BatchAllocation),
      runItemsL o m db items = .ok (db', log) →
      ∀ i, i ∉ items.map (fun it => it.id) → countE db' i = countE db i := by
  intro items
  induction items with
  | nil =>
    intro db db' log h i _
    cases h
    rfl
  | cons item rest ih =>
    intro db db' log h i hni
    unfold runItemsL at h
    rcases hp : processItemL o m db item with e | ⟨db1, log1⟩
    · rw [hp] at h
      exact absurd h (by simp)
    · rw [hp] at h
      dsimp only at h
      rcases hr : runItemsL o m db1 rest with e | ⟨db2, log2⟩
      · rw [hr] at h
        exact absurd h (by simp)
      · rw [hr] at h
        dsimp only at h
        simp only [Except.ok.injEq, Prod.mk.injEq] at h
        obtain ⟨hdb, -⟩ := h
        subst hdb
        simp only [List.map_cons, List.mem_cons, not_or] at hni
        obtain ⟨hni1, hni2⟩ := hni
        rw [ih db1 db2 log2 hr i (by simpa using hni2),
          processItemL_countE o m db item db1 log1 hp i]
        have hne1 : ¬(i = item.id) := fun hc => hni1 hc
        rw [if_neg fun hc => hne1 hc.2, add_zero]

lemma runItemsL_countE_once (o : Nat) (m : String) :
    ∀ (items : List SaleItem) (db db' : DB) (log : List BatchAllocation),
      (items.map fun it => it.id).Nodup →
      runItemsL o m db items = .ok (db', log) →
      ∀ it ∈ items, hasEntry db it.id = false →
        countE db' it.id = countE db it.id + 1 := by
  intro items
  induction items with
  | nil =>
    intro db db' log _ h it hit
    simp at hit
  | cons item rest ih =>
    intro db db' log hnd h it hit hfe
    unfold runItemsL at h
    rcases hp : processItemL o m db item with e | ⟨db1, log1⟩
    · rw [hp] at h
      exact absurd h (by simp)
    · rw [hp] at h
      dsimp only at h
      rcases hr : runItemsL o m db1 rest with e | ⟨db2, log2⟩
      · rw [hr] at h
        exact absurd h (by simp)
      · rw [hr] at h
        dsimp only at h
        simp only [Except.ok.injEq, Prod.mk.injEq] at h
        obtain ⟨hdb, -⟩ := h
        subst hdb
        simp only [List.map_cons, List.nodup_cons] at hnd
        obtain ⟨hnotin, hnd'⟩ := hnd
        rcases List.mem_cons.1 hit with rfl | hit'
        · rw [runItemsL_countE_notmem o m rest db1 db2 log2 hr it.id hnotin,
            processItemL_countE o m db it db1 log1 hp it.id]
          rw [if_pos ⟨hfe, rfl⟩]
        · have hid_ne : item.id ≠ it.id := by
            intro hcontra
            exact hnotin (hcontra ▸ List.mem_map_of_mem (fun x => x.id) hit')
          have hne2 : ¬(it.id = item.id) := fun hc => hid_ne hc.symm
          have hfe1 : hasEntry db1 it.id = false := by
            have hcount := processItemL_countE o m db item db1 log1 hp it.id
            rw [countE_eq_zero db it.id hfe, if_neg fun hc => hne2 hc.2,
              zero_add] at hcount
            by_contra hne
            have htrue : hasEntry db1 it.id = true := by
              cases hhe : hasEntry db1 it.id
              · exact absurd hhe hne
              · rfl
            unfold hasEntry at htrue
            rcases List.any_eq_true.1 htrue with ⟨e, hemem, heid⟩
            unfold countE at hcount
            rw [List.length_eq_zero, List.filter_eq_nil] at hcount
            exact hcount e hemem heid
          rw [ih db1 db2 log2 hnd' hr it hit' hfe1,
            processItemL_countE o m db item db1 log1 hp it.id,
            if_neg fun hc => hne2 hc.2, add_zero]

/-! ### Conservation of batch quantities -/

lemma applyList_cons (a : BatchAllocation) (rest : List BatchAllocation)
    (b : PurchaseBatch) : applyList (a :: rest) b = applyList rest (applyOne a b) :=
  rfl

lemma allocatedTo_append (l1 l2 : List BatchAllocation) (i : Nat) :
    allocatedTo (l1 ++ l2) i = allocatedTo l1 i + allocatedTo l2 i := by
  induction l1 with
  | nil => simp [allocatedTo]
  | cons a rest ih =>
    show (if a.batch.id = i then a.qty else 0) + allocatedTo (rest ++ l2) i = _
    rw [ih]
    simp only [allocatedTo]
    ring

lemma allocatedTo_nonneg (log : List BatchAllocation) (i : Nat)
    (h : ∀ a ∈ log, 0 ≤ a.qty) : 0 ≤ allocatedTo log i := by
  induction log with
  | nil => simp [allocatedTo]
  | cons a rest ih =>
    simp only [allocatedTo]
    have h1 := h a (List.mem_cons_self _ _)
    have h2 := ih fun a ha => h a (List.mem_cons_of_mem _ ha)
    by_cases hid : a.batch.id = i
    · rw [if_pos hid]
      linarith
    · rw [if_neg hid]
      linarith

lemma allocatedTo_eq_zero (log : List BatchAllocation) (i : Nat)
    (h : ∀ a ∈ log, a.batch.id ≠ i) : allocatedTo log i = 0 := by
  induction log with
  | nil => rfl
  | cons a rest ih =>
    simp only [allocatedTo]
    rw [if_neg (h a (List.mem_cons_self _ _)),
      ih fun a ha => h a (List.mem_cons_of_mem _ ha), add_zero]

lemma allocatedTo_le (log : List BatchAllocation) (b : PurchaseBatch)
    (hnd : (log.map fun a => a.batch.id).Nodup)
    (hq : ∀ a ∈ log, a.batch.id = b.id → a.qty ≤ b.qtyRemaining)
    (hb : 0 ≤ b.qtyRemaining) :
    allocatedTo log b.id ≤ b.qtyRemaining := by
  induction log with
  | nil => simpa [allocatedTo] using hb
  | cons a rest ih =>
    simp only [List.map_cons, List.nodup_cons] at hnd
    obtain ⟨hnotin, hnd'⟩ := hnd
    simp only [allocatedTo]
    by_cases hid : a.batch.id = b.id
    · rw [if_pos hid, allocatedTo_eq_zero rest b.id
        (fun x hx hc => hnotin (by
          rw [hid, ← hc]
          exact List.mem_map_of_mem (fun y => y.batch.id) hx)),
        add_zero]
      exact hq a (List.mem_cons_self _ _) hid
    · rw [if_neg hid, zero_add]
      exact ih hnd' fun x hx hc => hq x (List.mem_cons_of_mem _ hx) hc

lemma eq_of_mem_of_id_nodup (l : List PurchaseBatch)
    (h : (l.map fun b => b.id).Nodup) (a b : PurchaseBatch)
    (ha : a ∈ l) (hb : b ∈ l) (hid : a.id = b.id) : a = b := by
  induction l with
  | nil => simp at ha
  | cons c rest ih =>
    simp only [List.map_cons, List.nodup_cons] at h
    obtain ⟨hnotin, h'⟩ := h
    rcases List.mem_cons.1 ha with rfl | ha' <;> rcases List.mem_cons.1 hb with rfl | hb'
    · rfl
    · exfalso
      apply hnotin
      rw [hid]
      exact List.mem_map_of_mem (fun y => y.id) hb'
    · exfalso
      apply hnotin
      rw [← hid]
      exact List.mem_map_of_mem (fun y => y.id) ha'
    · exact ih h' ha' hb'

lemma applyOne_miss (a : BatchAllocation) (b : PurchaseBatch)
    (h : ¬ b.id = a.batch.id) : applyOne a b = b := by
  unfold applyOne
  rw [if_neg (by simpa using h)]

lemma applyOne_hit (a : BatchAllocation) (b : PurchaseBatch)
    (hid : b.id = a.batch.id) (hle : a.qty ≤ b.qtyRemaining) :
    applyOne a b = { b with qtyRemaining := b.qtyRemaining - a.qty } := by
  unfold applyOne
  rw [if_pos (by simpa using hid)]
  dsimp only
  rw [if_neg (not_lt.2 (by linarith))]

lemma applyList_miss (allocs : List BatchAllocation) :
    ∀ b : PurchaseBatch, (∀ a ∈ allocs, a.batch.id ≠ b.id) →
      applyList allocs b = b := by
  induction allocs with
  | nil => intro b _; rfl
  | cons a rest ih =>
    intro b h
    rw [applyList_cons,
      applyOne_miss a b fun hc => h a (List.mem_cons_self _ _) hc.symm]
    exact ih b fun x hx => h x (List.mem_cons_of_mem _ hx)

lemma applyList_eq (allocs : List BatchAllocation) :
    ∀ b : PurchaseBatch,
      ((allocs.map fun a => a.batch.id).Nodup) →
      (∀ a ∈ allocs, a.batch.id = b.id → a.qty ≤ b.qtyRemaining) →
      applyList allocs b = decBy allocs b := by
  induction allocs with
  | nil =>
    intro b _ _
    simp [applyList, decBy, allocatedTo]
  | cons a rest ih =>
    intro b hnd hq
    simp only [List.map_cons, List.nodup_cons] at hnd
    obtain ⟨hnotin, hnd'⟩ := hnd
    by_cases hid : a.batch.id = b.id
    · have hle := hq a (List.mem_cons_self _ _) hid
      have hrest : ∀ x ∈ rest, x.batch.id ≠ b.id := fun x hx hc => hnotin (by
        rw [hid, ← hc]
        exact List.mem_map_of_mem (fun y => y.batch.id) hx)
      rw [applyList_cons, applyOne_hit a b hid.symm hle,
        applyList_miss rest { b with qtyRemaining := b.qtyRemaining - a.qty } hrest]
      unfold decBy
      simp only [allocatedTo]
      rw [if_pos hid, allocatedTo_eq_zero rest b.id hrest, add_zero]
    · rw [applyList_cons, applyOne_miss a b fun hc => hid hc.symm]
      rw [ih b hnd' fun x hx hc => hq x (List.mem_cons_of_mem _ hx) hc]
      unfold decBy
      simp only [allocatedTo]
      rw [if_neg hid, zero_add]

lemma map_decBy_nil (l : List PurchaseBatch) : l.map (decBy []) = l := by
  induction l with
  | nil => rfl
  | cons b rest ih => simp [decBy, allocatedTo, ih]

lemma map_id_map_decBy (l : List PurchaseBatch) (log : List BatchAllocation) :
    ((l.map (decBy log)).map fun b => b.id) = l.map fun b => b.id := by
  rw [List.map_map]
  rfl

lemma pos_after_decBy (l : List PurchaseBatch) (log : List BatchAllocation)
    (hpos : ∀ b ∈ l, 0 ≤ b.qtyRemaining)
    (hle : ∀ b ∈ l, allocatedTo log b.id ≤ b.qtyRemaining) :
    ∀ b1 ∈ l.map (decBy log), 0 ≤ b1.qtyRemaining := by
  intro b1 hb1
  obtain ⟨b, hb, rfl⟩ := List.mem_map.1 hb1
  unfold decBy
  dsimp only
  linarith [hpos b hb, hle b hb]

lemma decBy_decBy (log1 log2 : List BatchAllocation) (b : PurchaseBatch) :
    decBy log2 (decBy log1 b) = decBy (log1 ++ log2) b := by
  unfold decBy
  dsimp only
  rw [allocatedTo_append]
  congr 1
  ring

lemma conserve_compose (db db1 db2 : DB) (log1 log2 : List BatchAllocation)
    (hB1 : db1.batches = db.batches.map (decBy log1))
    (hLe1 : ∀ b ∈ db.batches, allocatedTo log1 b.id ≤ b.qtyRemaining)
    (hB2 : db2.batches = db1.batches.map (decBy log2))
    (hLe2 : ∀ b ∈ db1.batches, allocatedTo log2 b.id ≤ b.qtyRemaining) :
    db2.batches = db.batches.map (decBy (log1 ++ log2)) ∧
    ∀ b ∈ db.batches, allocatedTo (log1 ++ log2) b.id ≤ b.qtyRemaining := by
  constructor
  · rw [hB2, hB1, List.map_map]
    exact List.map_congr_left fun b _ => decBy_decBy log1 log2 b
  · intro b hb
    have h2 := hLe2 (decBy log1 b) (by
      rw [hB1]
      exact List.mem_map_of_mem _ hb)
    unfold decBy at h2
    dsimp only at h2
    rw [allocatedTo_append]
    linarith [hLe1 b hb]

lemma foldl_applyAllocation_batches (allocs : List BatchAllocation) :
    ∀ db : DB, (allocs.foldl applyAllocation db).batches = db.batches.map (applyList allocs) := by
  induction allocs with
  | nil =>
    intro db
    have h1 : List.map (applyList []) db.batches = List.map id db.batches :=
      List.map_congr_left fun b _ => rfl
    rw [List.foldl_nil, h1, List.map_id]
  | cons a rest ih =>
    intro db
    rw [List.foldl_cons, ih (applyAllocation db a)]
    show (db.batches.map (applyOne a)).map (applyList rest) = _
    rw [List.map_map]
    rfl

lemma allocs_of_allocate (cands : List PurchaseBatch) (q : ℚ)
    (allocs : List BatchAllocation) (h : allocate_fifo cands q = .ok allocs) :
    allocs = (allocLoop cands q).1 := by
  unfold allocate_fifo at h
  dsimp only at h
  by_cases hc : (allocLoop cands q).2 > eps
  · rw [if_pos hc] at h
    cases h
  · rw [if_neg hc] at h
    cases h
    rfl

lemma alloc_nodup_ids (cands : List PurchaseBatch) (q : ℚ)
    (h : (cands.map fun b => b.id).Nodup) :
    ((allocLoop cands q).1.map fun a => a.batch.id).Nodup := by
  obtain ⟨htake, -, -, -⟩ := allocLoop_greedy cands q
  have hrw : ((allocLoop cands q).1.map fun a => a.batch.id) =
      (((cands.filter fun b => 0 < b.qtyRemaining).take
          (allocLoop cands q).1.length).map fun b => b.id) := by
    rw [← htake, List.map_map]
    rfl
  rw [hrw]
  refine List.Nodup.sublist ?_ h
  exact ((List.take_sublist _ _).trans (List.filter_sublist _)).map _

lemma mem_candidates (m : String) (db : DB) (p o : Nat) (b : PurchaseBatch)
    (hb : b ∈ (if m == "FEFO" then candidatesFefo db p o else candidatesFifo db p o)) :
    b ∈ db.batches := by
  by_cases hm : (m == "FEFO") = true
  · rw [if_pos hm] at hb
    exact mem_candidatesFefo db p o b hb
  · rw [if_neg hm] at hb
    exact mem_candidatesFifo db p o b hb

lemma nodup_candidates (m : String) (db : DB) (p o : Nat)
    (h : (db.batches.map fun b => b.id).Nodup) :
    (((if m == "FEFO" then candidatesFefo db p o else candidatesFifo db p o)).map
      fun b => b.id).Nodup := by
  by_cases hm : (m == "FEFO") = true
  · rw [if_pos hm]
    exact nodup_candidatesFefo db p o h
  · rw [if_neg hm]
    exact nodup_candidatesFifo db p o h

lemma processItemL_conserve (o : Nat) (m : String) (db : DB) (item : SaleItem)
    (db' : DB) (log : List BatchAllocation)
    (hnd : (db.batches.map fun b => b.id).Nodup)
    (hpos : ∀ b ∈ db.batches, 0 ≤ b.qtyRemaining)
    (h : processItemL o m db item = .ok (db', log)) :
    db'.batches = db.batches.map (decBy log) ∧
    (∀ b ∈ db.batches, allocatedTo log b.id ≤ b.qtyRemaining) ∧
    (∀ a ∈ log, 0 < a.qty) := by
  rcases processItemL_shape o m db item db' log h with ⟨-, rfl, rfl⟩ | ⟨-, halloc, hbatches, -⟩
  · refine ⟨(map_decBy_nil db'.batches).symm, ?_, ?_⟩
    · intro b hb
      simpa [allocatedTo] using hpos b hb
    · intro a ha
      simp at ha
  · have hlog : log = (allocLoop (if m == "FEFO" then candidatesFefo db item.productId o
        else candidatesFifo db item.productId o) item.qty).1 :=
      allocs_of_allocate _ _ _ halloc
    obtain ⟨-, -, hmem, -⟩ := allocLoop_greedy (if m == "FEFO" then candidatesFefo db item.productId o
        else candidatesFifo db item.productId o) item.qty
    have hmemdb : ∀ a ∈ log, 0 < a.qty ∧ a.qty ≤ a.batch.qtyRemaining ∧ a.batch ∈ db.batches := by
      intro a ha
      rw [hlog] at ha
      obtain ⟨h1, h2, h3⟩ := hmem a ha
      exact ⟨h1, h2, mem_candidates m db item.productId o a.batch h3⟩
    have hndlog : (log.map fun a => a.batch.id).Nodup := by
      rw [hlog]
      exact alloc_nodup_ids _ item.qty (nodup_candidates m db item.productId o hnd)
    have hql : ∀ b ∈ db.batches, ∀ a ∈ log, a.batch.id = b.id → a.qty ≤ b.qtyRemaining := by
      intro b hb a ha hc
      obtain ⟨-, h2, h3⟩ := hmemdb a ha
      have heq : a.batch = b := eq_of_mem_of_id_nodup db.batches hnd a.batch b h3 hb hc
      rw [← heq]
      exact h2
    refine ⟨?_, ?_, fun a ha => (hmemdb a ha).1⟩
    · rw [hbatches, foldl_applyAllocation_batches]
      exact List.map_congr_left fun b hb => applyList_eq log b hndlog (hql b hb)
    · intro b hb
      exact allocatedTo_le log b hndlog (hql b hb) (hpos b hb)

lemma runItemsL_conserve (o : Nat) (m : String) :
    ∀ (items : List SaleItem) (db db' : DB) (log : List BatchAllocation),
      (db.batches.map fun b => b.id).Nodup →
      (∀ b ∈ db.batches, 0 ≤ b.qtyRemaining) →
      runItemsL o m db items = .ok (db', log) →
      db'.batches = db.batches.map (decBy log) ∧
      (∀ b ∈ db.batches, allocatedTo log b.id ≤ b.qtyRemaining) ∧
      (∀ a ∈ log, 0 < a.qty) := by
  intro items
  induction items with
  | nil =>
    intro db db' log hnd hpos h
    cases h
    refine ⟨(map_decBy_nil db.batches).symm, ?_, ?_⟩
    · intro b hb
      simpa [allocatedTo] using hpos b hb
    · intro a ha
      simp at ha
  | cons item rest ih =>
    intro db db' log hnd hpos h
    unfold runItemsL at h
    rcases hp : processItemL o m db item with e | ⟨db1, log1⟩
    · rw [hp] at h
      exact absurd h (by simp)
    · rw [hp] at h
      dsimp only at h
      rcases hr : runItemsL o m db1 rest with e | ⟨db2, log2⟩
      · rw [hr] at h
        exact absurd h (by simp)
      · rw [hr] at h
        dsimp only at h
        simp only [Except.ok.injEq, Prod.mk.injEq] at h
        obtain ⟨hdb, hlog⟩ := h
        subst hdb
        subst hlog
        obtain ⟨hB1, hLe1, hPos1⟩ := processItemL_conserve o m db item db1 log1 hnd hpos hp
        have hnd1 : (db1.batches.map fun b => b.id).Nodup := by
          rw [hB1, map_id_map_decBy]
          exact hnd
        have hpos1 : ∀ b1 ∈ db1.batches, 0 ≤ b1.qtyRemaining := by
          rw [hB1]
          exact pos_after_decBy db.batches log1 hpos hLe1
        obtain ⟨hB2, hLe2, hPos2⟩ := ih db1 db2 log2 hnd1 hpos1 hr
        obtain ⟨hBc, hLec⟩ := conserve_compose db db1 db2 log1 log2 hB1 hLe1 hB2 hLe2
        refine ⟨hBc, hLec, ?_⟩
        intro a ha
        rcases List.mem_append.1 ha with h | h
        exacts [hPos1 a h, hPos2 a h]

lemma computeCogsL_conserve (sale : Sale) (m : String) (db : DB)
    (hnd : (db.batches.map fun b => b.id).Nodup)
    (hpos : ∀ b ∈ db.batches, 0 ≤ b.qtyRemaining) :
    (computeCogsL sale m db).1.batches =
      db.batches.map (decBy (computeCogsL sale m db).2) ∧
    (∀ b ∈ db.batches, allocatedTo (computeCogsL sale m db).2 b.id ≤ b.qtyRemaining) ∧
    (∀ a ∈ (computeCogsL sale m db).2, 0 < a.qty) := by
  have hnil : db.batches = db.batches.map (decBy []) ∧
      (∀ b ∈ db.batches, allocatedTo ([] : List BatchAllocation) b.id ≤ b.qtyRemaining) ∧
      (∀ a ∈ ([] : List BatchAllocation), 0 < a.qty) := by
    refine ⟨(map_decBy_nil db.batches).symm, ?_, ?_⟩
    · intro b hb
      simpa [allocatedTo] using hpos b hb
    · intro a ha
      simp at ha
  unfold computeCogsL
  by_cases hemp : sale.items.isEmpty
  · rw [if_pos hemp]
    exact hnil
  · rw [if_neg hemp]
    rcases hr : runItemsL sale.outletId m db sale.items with e | ⟨db2, log2⟩
    · exact hnil
    · exact runItemsL_conserve sale.outletId m sale.items db db2 log2 hnd hpos hr

lemma runSalesL_conserve :
    ∀ (calls : List (Sale × String)) (db : DB),
      (db.batches.map fun b => b.id).Nodup →
      (∀ b ∈ db.batches, 0 ≤ b.qtyRemaining) →
      (runSalesL db calls).1.batches =
        db.batches.map (decBy (runSalesL db calls).2) ∧
      (∀ b ∈ db.batches, allocatedTo (runSalesL db calls).2 b.id ≤ b.qtyRemaining) ∧
      (∀ a ∈ (runSalesL db calls).2, 0 < a.qty) := by
  intro calls
  induction calls with
  | nil =>
    intro db hnd hpos
    refine ⟨(map_decBy_nil db.batches).symm, ?_, ?_⟩
    · intro b hb
      simpa [allocatedTo] using hpos b hb
    · intro a ha
      exact absurd ha (List.not_mem_nil a)
  | cons c rest ih =>
    intro db hnd hpos
    obtain ⟨s, m⟩ := c
    obtain ⟨hB1, hLe1, hPos1⟩ := computeCogsL_conserve s m db hnd hpos
    have hnd1 : ((computeCogsL s m db).1.batches.map fun b => b.id).Nodup := by
      rw [hB1, map_id_map_decBy]
      exact hnd
    have hpos1 : ∀ b1 ∈ (computeCogsL s m db).1.batches, 0 ≤ b1.qtyRemaining := by
      rw [hB1]
      exact pos_after_decBy db.batches _ hpos hLe1
    obtain ⟨hB2, hLe2, hPos2⟩ := ih (computeCogsL s m db).1 hnd1 hpos1
    obtain ⟨hBc, hLec⟩ := conserve_compose db (computeCogsL s m db).1
      (runSalesL (computeCogsL s m db).1 rest).1 (computeCogsL s m db).2
      (runSalesL (computeCogsL s m db).1 rest).2 hB1 hLe1 hB2 hLe2
    refine ⟨hBc, hLec, ?_⟩
    intro a ha
    rcases List.mem_append.1 ha with h | h
    exacts [hPos1 a h, hPos2 a h]

/-! ### Remaining helper lemmas -/

lemma allocate_fifo_filter (bs : List PurchaseBatch) (q : ℚ) :
    allocate_fifo bs q = allocate_fifo (bs.filter fun b => 0 < b.qtyRemaining) q := by
  unfold allocate_fifo
  rw [← allocLoop_filter]

lemma quantize2_zero : quantize2 0 = 0 := by
  norm_num [quantize2, roundHalfEven]

lemma lineUnitCost_of_zero (t : ℚ) : lineUnitCost t 0 = 0 := by
  simp [lineUnitCost]

/-! ### The claims -/

/-- C10: batches with non-positive remaining quantity never influence the
allocation: `_allocate_fifo` on the full candidate list returns exactly the
same result — the same allocations, and failure in exactly the same cases —
as `_allocate_fifo` on the sublist of batches with positive remaining
quantity. -/
theorem claim_C10_nonpositive_invisible :
    ∀ (batches : List PurchaseBatch) (q : ℚ),
      allocate_fifo batches q =
        allocate_fifo (batches.filter fun b => 0 < b.qtyRemaining) q :=
  fun batches q => allocate_fifo_filter batches q

/-- C8: the allocation returned by `_allocate_fifo` is greedy in the input
order: the batches allocated from are exactly the first `k` positive-remaining
candidates in order, every allocation except possibly the last takes the
batch's whole remaining quantity, every allocation is positive, and the loop
visits each candidate at most once (at most one allocation per candidate). -/
theorem claim_C8_greedy (batches : List PurchaseBatch) (q : ℚ)
    (allocs : List BatchAllocation) (h : allocate_fifo batches q = .ok allocs) :
    (allocs.map fun a => a.batch) =
      (batches.filter fun b => 0 < b.qtyRemaining).take allocs.length ∧
    (∀ a ∈ allocs.dropLast, a.qty = a.batch.qtyRemaining) ∧
    (∀ a ∈ allocs, 0 < a.qty) ∧
    allocs.length ≤ batches.length := by
  obtain rfl := allocs_of_allocate batches q allocs h
  obtain ⟨h1, h2, h3, h4⟩ := allocLoop_greedy batches q
  exact ⟨h1, h2, fun a ha => (h3 a ha).1, h4⟩

/-- Witness for C8 at the FIFO example: allocating 7 from B1 (5 remaining)
and B2 (5 remaining) takes all of B1 and 2 of B2. -/
theorem claim_C8_greedy_witness :
    (([⟨batchB1, 5⟩, ⟨batchB2, 2⟩] : List BatchAllocation).map fun a => a.batch) =
      (([batchB1, batchB2].filter fun b => 0 < b.qtyRemaining).take
        ([⟨batchB1, 5⟩, ⟨batchB2, 2⟩] : List BatchAllocation).length) ∧
    (∀ a ∈ ([⟨batchB1, 5⟩, ⟨batchB2, 2⟩] : List BatchAllocation).dropLast,
      a.qty = a.batch.qtyRemaining) ∧
    (∀ a ∈ ([⟨batchB1, 5⟩, ⟨batchB2, 2⟩] : List BatchAllocation), 0 < a.qty) ∧
    ([⟨batchB1, 5⟩, ⟨batchB2, 2⟩] : List BatchAllocation).length ≤
      [batchB1, batchB2].length :=
  claim_C8_greedy [batchB1, batchB2] 7 [⟨batchB1, 5⟩, ⟨batchB2, 2⟩]
    (by norm_num [allocate_fifo, allocLoop, eps, batchB1, batchB2])

/-- C1: when a line's greedy allocation leaves a remainder above `1e-6` the
whole sale's costing raises `InsufficientInventory` and the committed state
is the unchanged database (one transaction, rolled back); and for any
non-negative needed quantity, the allocation fails exactly when the needed quantity
exceeds the available positive stock by more than the `1e-6` tolerance — in
particular a shortfall of at most `1e-6` succeeds rather than spuriously
failing. -/
theorem claim_C1_insufficiency (sale : Sale) (method : String) (db : DB) :
    (∀ e, compute_cogs_for_sale sale method db = .error e →
      computeCogsCommitted sale method db = db) ∧
    ∀ (cands : List PurchaseBatch) (q : ℚ), 0 ≤ q →
      (allocate_fifo cands q = .error () ↔ availTotal cands + eps < q) := by
  constructor
  · intro e h
    unfold computeCogsCommitted computeCogsL
    unfold compute_cogs_for_sale at h
    by_cases hemp : sale.items.isEmpty
    · rw [if_pos hemp] at h
      cases h
    · rw [if_neg hemp] at h
      rw [if_neg hemp]
      rcases hr : runItemsL sale.outletId method db sale.items with e2 | ⟨db2, log2⟩
      · rfl
      · rw [hr] at h
        dsimp only at h
        cases h
  · intro cands q hq
    exact allocate_fifo_error_iff cands q hq

/-- Witness for C1: a sale needing 2 units with only 1 in stock fails and
commits nothing, and the failure condition is exactly the epsilon test. -/
theorem claim_C1_insufficiency_witness :
    computeCogsCommitted saleW "FIFO" dbW = dbW ∧
    (allocate_fifo [batchW] 2 = .error () ↔ availTotal [batchW] + eps < 2) := by
  obtain ⟨h1, h2⟩ := claim_C1_insufficiency saleW "FIFO" dbW
  refine ⟨h1 () ?_, h2 [batchW] 2 (by norm_num)⟩
  norm_num [compute_cogs_for_sale, runItemsL, processItemL, hasEntry, saleW, dbW, batchW,
    pick_batches_fifo, candidatesFifo, batchesFor, allocate_fifo, allocLoop, eps,
    List.insertionSort, List.orderedInsert]

/-- C3: under FIFO the candidate batches are consumed in ascending
`(received_at, id)` order, and on the spec's example — B1(received day 1,
qty 5, cost 10), B2(received day 2, qty 5, cost 20), sale qty 7 — the
allocation takes 5 from B1 and 2 from B2 and the persisted blended unit cost
is `(5×10 + 2×20)/7` rounded to `12.86` (with total cost `90.00`). -/
theorem claim_C3_fifo_example :
    (∀ (db : DB) (p o : Nat), (candidatesFifo db p o).Sorted fifoLe) ∧
    pick_batches_fifo dbC3 1 1 7 = .ok [⟨batchB1, 5⟩, ⟨batchB2, 2⟩] ∧
    compute_cogs_for_sale saleC3 "FIFO" dbC3 = .ok dbC3res := by
  refine ⟨sorted_candidatesFifo, ?_, ?_⟩
  · norm_num [pick_batches_fifo, candidatesFifo, batchesFor, dbC3, batchB1, batchB2,
      allocate_fifo, allocLoop, eps, List.insertionSort, List.orderedInsert, fifoLe]
  · norm_num [compute_cogs_for_sale, runItemsL, processItemL, hasEntry, pick_batches_fifo,
      candidatesFifo, batchesFor, dbC3, dbC3res, saleC3, batchB1, batchB2, allocate_fifo,
      allocLoop, eps, fifoLe, List.insertionSort, List.orderedInsert, applyAllocation,
      applyOne, lineTotalCost, lineWeightedQty, lineUnitCost, quantize2, roundHalfEven]

/-- C4: under FEFO the candidates are ordered by expiry ascending with null
expiries after all non-null ones, then received date, then id; on the spec's
example — B1(expiry day 10, qty 3) received first, B2(expiry day 5, qty 3)
received later — a sale of qty 4 consumes 3 from B2 then 1 from B1, and a
batch without expiry sorts after every batch with one. -/
theorem claim_C4_fefo_example :
    (∀ (db : DB) (p o : Nat), (candidatesFefo db p o).Sorted fefoLe) ∧
    (∀ (db : DB) (p o : Nat), (candidatesFefo db p o).Pairwise
      fun a b => a.expiry = none → b.expiry = none) ∧
    pick_batches_fefo dbC4 1 1 4 = .ok [⟨batchE2, 3⟩, ⟨batchE1, 1⟩] ∧
    candidatesFefo dbNull 1 1 = [batchN2, batchN1] := by
  refine ⟨sorted_candidatesFefo, ?_, ?_, ?_⟩
  · intro db p o
    exact (sorted_candidatesFefo db p o).imp fun h ha => fefoLe_none _ _ h ha
  · norm_num [pick_batches_fefo, candidatesFefo, batchesFor, dbC4, batchE1, batchE2,
      allocate_fifo, allocLoop, eps, List.insertionSort, List.orderedInsert, fefoLe,
      natPairLt, expiryKey, fifoLe]
  · norm_num [candidatesFefo, batchesFor, dbNull, batchN1, batchN2,
      List.insertionSort, List.orderedInsert, fefoLe, natPairLt, expiryKey, fifoLe]

/-- C6 (code bug): the engine quantizes with Python's default
`ROUND_HALF_EVEN`, not the round-half-up the spec requires: blending one unit
at 12.84 with one unit at 12.85 gives exactly 12.845, which the code persists
as 12.84, while round-half-up (used everywhere else in the repository for
money) yields 12.85.  On the spec's own example the two modes agree:
12.855 rounds to 12.86 either way. -/
theorem claim_C6_rounding_divergence :
    compute_cogs_for_sale saleC6 "FIFO" dbC6 = .ok dbC6res ∧
    quantize2 (2569 / 200) = 1284 / 100 ∧
    specRoundHalfUp2 (2569 / 200) = 1285 / 100 ∧
    (1284 : ℚ) / 100 ≠ 1285 / 100 ∧
    quantize2 (12855 / 1000) = 1286 / 100 ∧
    specRoundHalfUp2 (12855 / 1000) = 1286 / 100 := by
  refine ⟨?_, ?_, ?_, by norm_num, ?_, ?_⟩
  · norm_num [compute_cogs_for_sale, runItemsL, processItemL, hasEntry, pick_batches_fifo,
      candidatesFifo, batchesFor, dbC6, dbC6res, saleC6, batchF1, batchF2, allocate_fifo,
      allocLoop, eps, fifoLe, List.insertionSort, List.orderedInsert, applyAllocation,
      applyOne, lineTotalCost, lineWeightedQty, lineUnitCost, quantize2, roundHalfEven]
  · norm_num [quantize2, roundHalfEven]
  · norm_num [specRoundHalfUp2]
  · norm_num [quantize2, roundHalfEven]
  · norm_num [specRoundHalfUp2]

/-- C7 counterexample: the fetched-and-locked candidate set is *not*
restricted to positive-remaining batches — a fully depleted batch of the
(product, outlet) pair is fetched and locked, so the code's candidate list
differs from the spec's (which excludes it). -/
theorem claim_C7_counterexample :
    candidatesFifo dbC7 1 1 = [batchDead] ∧
    batchDead.qtyRemaining = 0 ∧
    specCandidatesFifo dbC7 1 1 = [] ∧
    candidatesFifo dbC7 1 1 ≠ specCandidatesFifo dbC7 1 1 := by
  refine ⟨?_, by norm_num [batchDead], ?_, ?_⟩
  · norm_num [candidatesFifo, batchesFor, dbC7, batchDead, List.insertionSort,
      List.orderedInsert]
  · norm_num [specCandidatesFifo, batchesFor, dbC7, batchDead, List.insertionSort,
      List.orderedInsert]
  · norm_num [candidatesFifo, specCandidatesFifo, batchesFor, dbC7, batchDead,
      List.insertionSort, List.orderedInsert]

/-- C7 amended: the locked candidate sequence consists of *all* batches of
the (product, outlet) pair — including those with non-positive remaining
quantity — ordered per the policy (FIFO: `(received_at, id)`; FEFO: expiry
ascending with nulls last, then `received_at`, then `id`); the allocation
step ignores the non-positive batches, so the allocation outcome is the same
as if only positive batches had been fetched. -/
theorem claim_C7_lock_scope_amended :
    ∀ (db : DB) (p o : Nat),
      (candidatesFifo db p o).Perm (batchesFor db p o) ∧
      (candidatesFifo db p o).Sorted fifoLe ∧
      (candidatesFefo db p o).Perm (batchesFor db p o) ∧
      (candidatesFefo db p o).Sorted fefoLe ∧
      ∀ q : ℚ,
        pick_batches_fifo db p o q =
          allocate_fifo ((candidatesFifo db p o).filter fun b => 0 < b.qtyRemaining) q ∧
        pick_batches_fefo db p o q =
          allocate_fifo ((candidatesFefo db p o).filter fun b => 0 < b.qtyRemaining) q := by
  intro db p o
  refine ⟨perm_candidatesFifo db p o, sorted_candidatesFifo db p o,
    perm_candidatesFefo db p o, sorted_candidatesFefo db p o, fun q => ⟨?_, ?_⟩⟩
  · exact allocate_fifo_filter _ q
  · exact allocate_fifo_filter _ q

/-- C9: the blended unit cost never divides by zero — a successful per-item
step either skips the line or appends exactly one entry, and whenever the
total allocated quantity of that line is zero the persisted unit cost is
exactly 0 rather than the quotient. -/
theorem claim_C9_no_div_by_zero (o : Nat) (m : String) (db : DB) (item : SaleItem)
    (db' : DB) (log : List BatchAllocation)
    (h : processItemL o m db item = .ok (db', log)) :
    db'.cogs = db.cogs ∨
    ∃ e, db'.cogs = db.cogs ++ [e] ∧ (lineWeightedQty log = 0 → e.unit_cost = 0) := by
  rcases processItemL_shape o m db item db' log h with ⟨-, rfl, rfl⟩ | ⟨-, -, -, hc⟩
  · left
    rfl
  · right
    refine ⟨_, hc, fun hw => ?_⟩
    dsimp only
    rw [hw, lineUnitCost_of_zero, quantize2_zero]

/-- Witness for C9: costing a zero-quantity line against an empty batch table
succeeds with an entry whose unit cost is 0. -/
theorem claim_C9_no_div_by_zero_witness :
    dbC9res.cogs = dbC9.cogs ∨
    ∃ e, dbC9res.cogs = dbC9.cogs ++ [e] ∧
      (lineWeightedQty [] = 0 → e.unit_cost = 0) :=
  claim_C9_no_div_by_zero 1 "FIFO" dbC9 itemZ dbC9res []
    (by norm_num [processItemL, hasEntry, dbC9, dbC9res, itemZ, candidatesFifo, batchesFor,
      allocate_fifo, allocLoop, eps, List.insertionSort, lineTotalCost, lineWeightedQty,
      lineUnitCost, quantize2, roundHalfEven])

/-- C2: `compute_cogs_for_sale` is idempotent — after a successful call, a
second call (with any method) returns the same database unchanged: every sale
line already has its entry and is skipped, so no second entry is created and
no batch is re-decremented; and each line that had no entry before the first
call has exactly one entry afterwards. -/
theorem claim_C2_idempotent (sale : Sale) (m m2 : String) (db db' : DB)
    (h : compute_cogs_for_sale sale m db = .ok db')
    (hnd : (sale.items.map fun it => it.id).Nodup) :
    compute_cogs_for_sale sale m2 db' = .ok db' ∧
    ∀ it ∈ sale.items, hasEntry db it.id = false → countE db' it.id = 1 := by
  unfold compute_cogs_for_sale at h ⊢
  by_cases hemp : sale.items.isEmpty
  · rw [if_pos hemp] at h
    cases h
    rw [if_pos hemp]
    refine ⟨rfl, ?_⟩
    intro it hit
    rw [List.isEmpty_iff] at hemp
    rw [hemp] at hit
    simp at hit
  · rw [if_neg hemp] at h
    rw [if_neg hemp]
    rcases hr : runItemsL sale.outletId m db sale.items with e | ⟨db2, log2⟩
    · rw [hr] at h
      exact absurd h (by simp)
    · rw [hr] at h
      dsimp only at h
      cases h
      constructor
      · rw [runItemsL_allSkip sale.outletId m2 sale.items db'
          (runItemsL_hasEntry_all sale.outletId m sale.items db db' log2 hr)]
      · intro it hit hfe
        rw [runItemsL_countE_once sale.outletId m sale.items db db' log2 hnd hr it hit hfe,
          countE_eq_zero db it.id hfe]

/-- Witness for C2: after costing the FIFO example sale, a second call under
FEFO leaves the database unchanged and the line has exactly one entry. -/
theorem claim_C2_idempotent_witness :
    compute_cogs_for_sale saleC3 "FEFO" dbC3res = .ok dbC3res ∧
    ∀ it ∈ saleC3.items, hasEntry dbC3 it.id = false → countE dbC3res it.id = 1 :=
  claim_C2_idempotent saleC3 "FIFO" "FEFO" dbC3 dbC3res
    (by norm_num [compute_cogs_for_sale, runItemsL, processItemL, hasEntry,
      pick_batches_fifo, candidatesFifo, batchesFor, dbC3, dbC3res, saleC3, batchB1,
      batchB2, allocate_fifo, allocLoop, eps, fifoLe, List.insertionSort,
      List.orderedInsert, applyAllocation, applyOne, lineTotalCost, lineWeightedQty,
      lineUnitCost, quantize2, roundHalfEven])
    (by simp [saleC3])

/-- C5: every decrement removes exactly the allocated quantity (the
zero-clamp never fires when the invariant holds), so over any sequence of
committed `compute_cogs_for_sale` calls the invariant
`0 ≤ qty_remaining ≤ qty_in` is preserved, `qty_in` never changes, the drop
in a batch's remaining quantity equals the total quantity allocated from it
across those calls, that total is non-negative and never exceeds `qty_in`,
and for a batch that started full, `qty_in − qty_remaining` equals the total
allocated. -/
theorem claim_C5_conservation (db : DB) (calls : List (Sale × String))
    (hnd : (db.batches.map fun b => b.id).Nodup)
    (hinv : ∀ b ∈ db.batches, 0 ≤ b.qtyRemaining ∧ b.qtyRemaining ≤ b.qtyIn) :
    (∀ b' ∈ (runSalesL db calls).1.batches,
      0 ≤ b'.qtyRemaining ∧ b'.qtyRemaining ≤ b'.qtyIn) ∧
    ∀ b ∈ db.batches, ∀ b' ∈ (runSalesL db calls).1.batches, b'.id = b.id →
      b'.qtyIn = b.qtyIn ∧
      b.qtyRemaining - b'.qtyRemaining = allocatedTo (runSalesL db calls).2 b.id ∧
      0 ≤ allocatedTo (runSalesL db calls).2 b.id ∧
      allocatedTo (runSalesL db calls).2 b.id ≤ b.qtyIn ∧
      (b.qtyRemaining = b.qtyIn →
        b.qtyIn - b'.qtyRemaining = allocatedTo (runSalesL db calls).2 b.id) := by
  obtain ⟨hB, hLe, hPos⟩ := runSalesL_conserve calls db hnd fun b hb => (hinv b hb).1
  have hnn : ∀ i, 0 ≤ allocatedTo (runSalesL db calls).2 i := fun i =>
    allocatedTo_nonneg _ i fun a ha => (hPos a ha).le
  constructor
  · intro b' hb'
    rw [hB] at hb'
    obtain ⟨b, hb, rfl⟩ := List.mem_map.1 hb'
    unfold decBy
    dsimp only
    obtain ⟨h3, h4⟩ := hinv b hb
    exact ⟨by linarith [hLe b hb], by linarith [hnn b.id]⟩
  · intro b hb b' hb' hid
    rw [hB] at hb'
    obtain ⟨b2, hb2, rfl⟩ := List.mem_map.1 hb'
    have hbb : b2 = b := eq_of_mem_of_id_nodup db.batches hnd b2 b hb2 hb hid
    subst hbb
    unfold decBy
    dsimp only
    obtain ⟨h3, h4⟩ := hinv b2 hb2
    have h5 := hLe b2 hb2
    refine ⟨rfl, by ring, hnn b2.id, by linarith, fun hfull => by rw [← hfull]; ring⟩

/-- Witness for C5 at the FIFO example database and one committed call. -/
theorem claim_C5_conservation_witness :
    (∀ b' ∈ (runSalesL dbC3 [(saleC3, "FIFO")]).1.batches,
      0 ≤ b'.qtyRemaining ∧ b'.qtyRemaining ≤ b'.qtyIn) ∧
    ∀ b ∈ dbC3.batches, ∀ b' ∈ (runSalesL dbC3 [(saleC3, "FIFO")]).1.batches,
      b'.id = b.id →
      b'.qtyIn = b.qtyIn ∧
      b.qtyRemaining - b'.qtyRemaining =
        allocatedTo (runSalesL dbC3 [(saleC3, "FIFO")]).2 b.id ∧
      0 ≤ allocatedTo (runSalesL dbC3 [(saleC3, "FIFO")]).2 b.id ∧
      allocatedTo (runSalesL dbC3 [(saleC3, "FIFO")]).2 b.id ≤ b.qtyIn ∧
      (b.qtyRemaining = b.qtyIn →
        b.qtyIn - b'.qtyRemaining =
          allocatedTo (runSalesL dbC3 [(saleC3, "FIFO")]).2 b.id) :=
  claim_C5_conservation dbC3 [(saleC3, "FIFO")]
    (by simp [dbC3, batchB1, batchB2])
    (by
      intro b hb
      simp only [dbC3, List.mem_cons, List.not_mem_nil, or_false] at hb
      rcases hb with rfl | rfl <;> norm_num [batchB1, batchB2])
